import Mathlib

/-!
Shallow embedding of the `uhttp_uri` crate (`src/lib.rs`): a zero-allocation
parser for HTTP request-line URIs.  Rust string slices are modelled as lists
of characters (`Str`); Rust's byte indices become character indices, which
split the string at the same boundaries for the ASCII delimiters the crate
uses.  `Result<T, ()>` is modelled as `Option T` (the sole error value `()`
becomes `none`).  Slicing `&s[i..]` / `&s[..i]` becomes `List.drop` /
`List.take`; the in-bounds obligations of the partial Rust operations are
proved separately.
-/

/-- Character-list model of Rust `&str` contents. -/
abbrev Str := List Char

/-- Model of Rust `str::find(char)`: index of the first occurrence of `c`. -/
def findChar (c : Char) : Str → Option Nat
  | [] => none
  | x :: xs => if x = c then some 0 else (findChar c xs).map (· + 1)

/-- Model of Rust `str::find(&str)`: index of the first occurrence of the
substring `pat`. -/
def findSub (pat : Str) : Str → Option Nat
  | [] => if pat.isPrefixOf ([] : Str) then some 0 else none
  | x :: xs => if pat.isPrefixOf (x :: xs) then some 0 else (findSub pat xs).map (· + 1)

/-- Schemes for HTTP requests (`enum HttpScheme`). -/
inductive HttpScheme where
  | Http
  | Https
deriving DecidableEq, Repr

/-- `impl FromStr for HttpScheme`: `"http"` and `"https"` parse, everything
else is the error (modelled as `none`). -/
def HttpScheme.fromStr (s : Str) : Option HttpScheme :=
  if s = "http".toList then some HttpScheme.Http
  else if s = "https".toList then some HttpScheme.Https
  else none

/-- `impl Display for HttpScheme` (`fmt` writes one of two tokens). -/
def HttpScheme.render : HttpScheme → Str
  | HttpScheme.Http => "http".toList
  | HttpScheme.Https => "https".toList

/-- Components in an HTTP URI resource (`struct HttpResource`).  `query` and
`fragment` are `None`/`Some` exactly as in the source. -/
structure HttpResource where
  path : Str
  query : Option Str
  fragment : Option Str
deriving DecidableEq, Repr

/-- `fn parts`: split a resource string into path, query, and fragment given
the positions of the first `?` and the first `#`.  Mirrors the source's four
`match` arms.  When the `#` is at or before the `?` the source makes the
recursive call `parts(s, None, Some(f))`, which lands exactly in the
`(None, Some(f))` arm; that arm is inlined at the call site here so the
definition needs no recursion.  Rust's `(&s[..f]).split_at(q)` is
`((s.take f).take q, (s.take f).drop q)`, `s.split_at(f)` is
`(s.take f, s.drop f)`, and `&x[1..]` is `x.drop 1`. -/
def parts (s : Str) (qidx fidx : Option Nat) : Str × Str × Str :=
  match qidx, fidx with
  | some q, some f =>
    if q < f then
      let path := (s.take f).take q
      let query := (s.take f).drop q
      let frag := s.drop f
      (path, query.drop 1, frag.drop 1)
    else
      let path := s.take f
      let frag := s.drop f
      (path, ([] : Str), frag.drop 1)
  | some q, none =>
    let path := s.take q
    let query := s.drop q
    (path, query.drop 1, ([] : Str))
  | none, some f =>
    let path := s.take f
    let frag := s.drop f
    (path, ([] : Str), frag.drop 1)
  | none, none => (s, ([] : Str), ([] : Str))

/-- `HttpResource::new`: split at the first `?` and `#`, then normalize an
empty path to `"/"` and empty query/fragment to `None`. -/
def HttpResource.new (s : Str) : HttpResource :=
  let pqf := parts s (findChar '?' s) (findChar '#' s)
  { path := if pqf.1.isEmpty then "/".toList else pqf.1
    query := if pqf.2.1.isEmpty then none else some pqf.2.1
    fragment := if pqf.2.2.isEmpty then none else some pqf.2.2 }

/-- `impl Display for HttpResource`: path, then `?query` when present, then
`#fragment` when present. -/
def HttpResource.render (r : HttpResource) : Str :=
  r.path
    ++ (match r.query with
        | some q => '?' :: q
        | none => ([] : Str))
    ++ (match r.fragment with
        | some f => '#' :: f
        | none => ([] : Str))

/-- Components in an HTTP Request Line URI (`struct HttpUri`). -/
structure HttpUri where
  scheme : HttpScheme
  authority : Str
  resource : HttpResource
deriving DecidableEq, Repr

/-- `HttpUri::new`: find `"://"`, parse the scheme before it, skip the
3-character delimiter, split the remainder at the first `/` into authority
and resource tail, reject an empty authority, and hand the tail to
`HttpResource::new`. -/
def HttpUri.new (s : Str) : Option HttpUri :=
  match findSub ("://".toList) s with
  | none => none
  | some idx =>
    match HttpScheme.fromStr (s.take idx) with
    | none => none
    | some scheme =>
      let rest := (s.drop idx).drop 3
      let ar :=
        match findChar '/' rest with
        | some i => (rest.take i, rest.drop i)
        | none => (rest, ([] : Str))
      if ar.1.isEmpty then none
      else some { scheme := scheme, authority := ar.1, resource := HttpResource.new ar.2 }

/-- `impl Display for HttpUri`: scheme, `"://"`, authority, resource. -/
def HttpUri.render (u : HttpUri) : Str :=
  u.scheme.render ++ "://".toList ++ u.authority ++ u.resource.render

/-- The normalization step of `HttpResource::new` applied to a raw
path/query/fragment split (the three `if` expressions in the source's
struct literal). -/
def normRes (p q f : Str) : HttpResource :=
  { path := if p.isEmpty then "/".toList else p
    query := if q.isEmpty then none else some q
    fragment := if f.isEmpty then none else some f }

/-! ### Facts about the two search primitives -/

theorem findChar_eq_none {c : Char} {s : Str} : findChar c s = none ↔ c ∉ s := by
  induction s with
  | nil => simp [findChar]
  | cons x xs ih =>
    by_cases hx : x = c
    · subst hx; simp [findChar]
    · rw [findChar, if_neg hx]
      simp only [Option.map_eq_none', ih, List.mem_cons, not_or]
      exact ⟨fun h => ⟨fun hc => hx hc.symm, h⟩, fun h => h.2⟩

theorem findChar_spec {c : Char} {s : Str} {i : Nat} (h : findChar c s = some i) :
    i < s.length ∧ c ∉ s.take i ∧ s = s.take i ++ c :: s.drop (i + 1) := by
  induction s generalizing i with
  | nil => simp [findChar] at h
  | cons x xs ih =>
    by_cases hx : x = c
    · subst hx
      simp [findChar] at h
      subst h
      simp
    · rw [findChar, if_neg hx] at h
      obtain ⟨j, hj, rfl⟩ := Option.map_eq_some'.mp h
      obtain ⟨h1, h2, h3⟩ := ih hj
      refine ⟨by simpa using h1, ?_, ?_⟩
      · simp only [List.take_succ_cons, List.mem_cons]
        rintro (rfl | hc)
        · exact hx rfl
        · exact h2 hc
      · simpa [List.take_succ_cons, List.drop_succ_cons] using h3

theorem findChar_lt_length {c : Char} {s : Str} {i : Nat} (h : findChar c s = some i) :
    i < s.length :=
  (findChar_spec h).1

theorem findChar_append_not_mem {c : Char} (b : Str) {a : Str} (h : c ∉ a) :
    findChar c (a ++ b) = (findChar c b).map (· + a.length) := by
  induction a with
  | nil =>
    cases hb : findChar c b <;> simp [hb]
  | cons x xs ih =>
    simp only [List.mem_cons, not_or] at h
    rw [List.cons_append, findChar, if_neg (fun hx => h.1 hx.symm), ih h.2]
    cases hb : findChar c b <;> simp [hb, Nat.add_assoc]

theorem findChar_append_cons {c : Char} (b : Str) {a : Str} (h : c ∉ a) :
    findChar c (a ++ c :: b) = some a.length := by
  rw [findChar_append_not_mem (c :: b) h]
  simp [findChar]

theorem mem_take_findChar {c : Char} {s : Str} {i : Nat} (h : c ∈ s.take i) :
    ∃ j, findChar c s = some j ∧ j < i := by
  induction s generalizing i with
  | nil => simp at h
  | cons x xs ih =>
    cases i with
    | zero => simp at h
    | succ n =>
      by_cases hx : x = c
      · exact ⟨0, by simp [findChar, hx], Nat.succ_pos n⟩
      · simp only [List.take_succ_cons, List.mem_cons] at h
        rcases h with rfl | h
        · exact absurd rfl hx
        · obtain ⟨j, hj, hlt⟩ := ih h
          exact ⟨j + 1, by simp [findChar, hx, hj], Nat.succ_lt_succ hlt⟩

theorem findSub_sound {p s : Str} {i : Nat} (h : findSub p s = some i) :
    p <+: s.drop i := by
  induction s generalizing i with
  | nil =>
    rw [findSub] at h
    split at h
    · cases h
      exact List.isPrefixOf_iff_prefix.mp (by assumption)
    · cases h
  | cons x xs ih =>
    rw [findSub] at h
    split at h
    · cases h
      exact List.isPrefixOf_iff_prefix.mp (by assumption)
    · obtain ⟨j, hj, rfl⟩ := Option.map_eq_some'.mp h
      simpa [List.drop_succ_cons] using ih hj

/-! ### Characterization of `HttpResource.new` -/

theorem new_eq_normRes (s : Str) :
    HttpResource.new s =
      normRes (parts s (findChar '?' s) (findChar '#' s)).1
        (parts s (findChar '?' s) (findChar '#' s)).2.1
        (parts s (findChar '?' s) (findChar '#' s)).2.2 := rfl

/-- The four-way outcome of `HttpResource.new`, with the raw components
written as takes and drops of the input. -/
theorem new_cases (s : Str) :
    (∃ q f, findChar '?' s = some q ∧ findChar '#' s = some f ∧ q < f ∧
      HttpResource.new s = normRes (s.take q) ((s.take f).drop (q + 1)) (s.drop (f + 1))) ∨
    (∃ f, findChar '#' s = some f ∧ (∀ q, findChar '?' s = some q → f ≤ q) ∧
      HttpResource.new s = normRes (s.take f) ([] : Str) (s.drop (f + 1))) ∨
    (∃ q, findChar '?' s = some q ∧ findChar '#' s = none ∧
      HttpResource.new s = normRes (s.take q) (s.drop (q + 1)) ([] : Str)) ∨
    (findChar '?' s = none ∧ findChar '#' s = none ∧
      HttpResource.new s = normRes s ([] : Str) ([] : Str)) := by
  rcases hq : findChar '?' s with _ | q <;> rcases hf : findChar '#' s with _ | f
  · exact Or.inr (Or.inr (Or.inr ⟨rfl, rfl, by rw [new_eq_normRes, hq, hf]; rfl⟩))
  · refine Or.inr (Or.inl ⟨f, rfl, ?_, ?_⟩)
    · intro q h
      simp at h
    · rw [new_eq_normRes, hq, hf]
      simp [parts, List.drop_drop, Nat.add_comm 1 f]
  · refine Or.inr (Or.inr (Or.inl ⟨q, rfl, rfl, ?_⟩))
    rw [new_eq_normRes, hq, hf]
    simp [parts, List.drop_drop, Nat.add_comm 1 q]
  · rcases Nat.lt_or_ge q f with hlt | hle
    · refine Or.inl ⟨q, f, rfl, rfl, hlt, ?_⟩
      rw [new_eq_normRes, hq, hf]
      simp [parts, hlt, List.take_take, Nat.min_eq_left (Nat.le_of_lt hlt),
        List.drop_drop, Nat.add_comm 1 q, Nat.add_comm 1 f]
    · refine Or.inr (Or.inl ⟨f, rfl, ?_, ?_⟩)
      · intro q' h
        injection h with h
        exact h ▸ hle
      · rw [new_eq_normRes, hq, hf]
        simp [parts, Nat.not_lt_of_ge hle, List.drop_drop, Nat.add_comm 1 f]

theorem normRes_path_ne_nil (p q f : Str) : (normRes p q f).path ≠ [] := by
  rw [normRes]
  split <;> simp_all [List.isEmpty_iff]

theorem normRes_query_ne_some_nil (p q f : Str) : (normRes p q f).query ≠ some [] := by
  rw [normRes]
  split <;> simp_all [List.isEmpty_iff]

theorem normRes_fragment_ne_some_nil (p q f : Str) : (normRes p q f).fragment ≠ some [] := by
  rw [normRes]
  split <;> simp_all [List.isEmpty_iff]

theorem normRes_path_not_mem {c : Char} {p : Str} (q f : Str) (hc : c ≠ '/') (h : c ∉ p) :
    c ∉ (normRes p q f).path := by
  rw [normRes]
  split
  · simpa using hc
  · exact h

theorem normRes_query_eq_some {p q f qv : Str} (h : (normRes p q f).query = some qv) :
    qv = q ∧ q ≠ [] := by
  by_cases hqe : q.isEmpty = true
  · simp [normRes, hqe] at h
  · simp [normRes, hqe] at h
    exact ⟨h.symm, by simpa [List.isEmpty_iff] using hqe⟩

theorem normRes_fragment_eq_some {p q f fv : Str} (h : (normRes p q f).fragment = some fv) :
    fv = f ∧ f ≠ [] := by
  by_cases hfe : f.isEmpty = true
  · simp [normRes, hfe] at h
  · simp [normRes, hfe] at h
    exact ⟨h.symm, by simpa [List.isEmpty_iff] using hfe⟩

theorem new_path_ne_nil (s : Str) : (HttpResource.new s).path ≠ [] := by
  rw [new_eq_normRes]
  exact normRes_path_ne_nil _ _ _

theorem new_query_ne_some_nil (s : Str) : (HttpResource.new s).query ≠ some [] := by
  rw [new_eq_normRes]
  exact normRes_query_ne_some_nil _ _ _

theorem new_fragment_ne_some_nil (s : Str) : (HttpResource.new s).fragment ≠ some [] := by
  rw [new_eq_normRes]
  exact normRes_fragment_ne_some_nil _ _ _

theorem new_path_not_mem_q (s : Str) : '?' ∉ (HttpResource.new s).path := by
  rcases new_cases s with ⟨q, f, hq, hf, hlt, hnew⟩ | ⟨f, hf, hmin, hnew⟩ |
    ⟨q, hq, hf, hnew⟩ | ⟨hq, hf, hnew⟩ <;> rw [hnew]
  · exact normRes_path_not_mem _ _ (by decide) (findChar_spec hq).2.1
  · refine normRes_path_not_mem _ _ (by decide) fun hmem => ?_
    obtain ⟨j, hj, hjlt⟩ := mem_take_findChar hmem
    exact absurd hjlt (Nat.not_lt_of_ge (hmin j hj))
  · exact normRes_path_not_mem _ _ (by decide) (findChar_spec hq).2.1
  · exact normRes_path_not_mem _ _ (by decide) (findChar_eq_none.mp hq)

theorem new_path_not_mem_f (s : Str) : '#' ∉ (HttpResource.new s).path := by
  rcases new_cases s with ⟨q, f, hq, hf, hlt, hnew⟩ | ⟨f, hf, hmin, hnew⟩ |
    ⟨q, hq, hf, hnew⟩ | ⟨hq, hf, hnew⟩ <;> rw [hnew]
  · refine normRes_path_not_mem _ _ (by decide) fun hmem => ?_
    obtain ⟨j, hj, hjlt⟩ := mem_take_findChar hmem
    rw [hf] at hj
    injection hj with hj
    omega
  · exact normRes_path_not_mem _ _ (by decide) (findChar_spec hf).2.1
  · exact normRes_path_not_mem _ _ (by decide)
      fun hm => findChar_eq_none.mp hf (List.take_subset _ _ hm)
  · exact normRes_path_not_mem _ _ (by decide) (findChar_eq_none.mp hf)

theorem new_query_char {s qv : Str} (h : (HttpResource.new s).query = some qv) :
    qv ≠ [] ∧ '#' ∉ qv ∧ ∃ i, findChar '?' s = some i ∧ qv <+: s.drop (i + 1) := by
  rcases new_cases s with ⟨q, f, hq, hf, hlt, hnew⟩ | ⟨f, hf, hmin, hnew⟩ |
    ⟨q, hq, hf, hnew⟩ | ⟨hq, hf, hnew⟩ <;> rw [hnew] at h
  · obtain ⟨rfl, hne⟩ := normRes_query_eq_some h
    refine ⟨hne, ?_, q, hq, ?_⟩
    · exact fun hmem => (findChar_spec hf).2.1 (List.drop_subset _ _ hmem)
    · rw [List.drop_take]
      exact List.take_prefix _ _
  · exact absurd (normRes_query_eq_some h).2 (by simp)
  · obtain ⟨rfl, hne⟩ := normRes_query_eq_some h
    refine ⟨hne, ?_, q, hq, List.prefix_refl _⟩
    exact fun hmem => (findChar_eq_none.mp hf) (List.drop_subset _ _ hmem)
  · exact absurd (normRes_query_eq_some h).2 (by simp)

theorem new_fragment_char {s fv : Str} (h : (HttpResource.new s).fragment = some fv) :
    fv ≠ [] ∧ ∃ j, findChar '#' s = some j ∧ fv = s.drop (j + 1) := by
  rcases new_cases s with ⟨q, f, hq, hf, hlt, hnew⟩ | ⟨f, hf, hmin, hnew⟩ |
    ⟨q, hq, hf, hnew⟩ | ⟨hq, hf, hnew⟩ <;> rw [hnew] at h
  · obtain ⟨rfl, hne⟩ := normRes_fragment_eq_some h
    exact ⟨hne, f, hf, rfl⟩
  · obtain ⟨rfl, hne⟩ := normRes_fragment_eq_some h
    exact ⟨hne, f, hf, rfl⟩
  · exact absurd (normRes_fragment_eq_some h).2 (by simp)
  · exact absurd (normRes_fragment_eq_some h).2 (by simp)

theorem take_slash_head (t : Str) (k : Nat) :
    ('/' :: t).take k = [] ∨ ∃ u, ('/' :: t).take k = '/' :: u := by
  cases k with
  | zero => exact Or.inl rfl
  | succ n => exact Or.inr ⟨t.take n, rfl⟩

theorem normRes_path_head {p : Str} (q f : Str) (hp : p = [] ∨ ∃ u, p = '/' :: u) :
    ∃ u, (normRes p q f).path = '/' :: u := by
  rcases hp with rfl | ⟨u, rfl⟩
  · exact ⟨[], rfl⟩
  · exact ⟨u, by simp [normRes]⟩

theorem new_path_head {s : Str} (hs : s = [] ∨ ∃ t, s = '/' :: t) :
    ∃ u, (HttpResource.new s).path = '/' :: u := by
  rcases hs with rfl | ⟨t, rfl⟩
  · exact ⟨[], rfl⟩
  · rcases new_cases ('/' :: t) with ⟨q, f, hq, hf, hlt, hnew⟩ | ⟨f, hf, hmin, hnew⟩ |
      ⟨q, hq, hf, hnew⟩ | ⟨hq, hf, hnew⟩ <;> rw [hnew]
    · exact normRes_path_head _ _ (take_slash_head t q)
    · exact normRes_path_head _ _ (take_slash_head t f)
    · exact normRes_path_head _ _ (take_slash_head t q)
    · exact normRes_path_head _ _ (Or.inr ⟨t, rfl⟩)

/-! ### Reconstruction: parsing a rendered resource -/

/-- Parsing the rendering of components that satisfy the parser's output
invariants gives back exactly those components. -/
theorem new_render_components (p : Str) (q f : Option Str)
    (hp : p ≠ []) (hpq : '?' ∉ p) (hpf : '#' ∉ p)
    (hq : ∀ qv, q = some qv → qv ≠ [] ∧ '#' ∉ qv)
    (hf : ∀ fv, f = some fv → fv ≠ []) :
    HttpResource.new (HttpResource.render ⟨p, q, f⟩) = ⟨p, q, f⟩ := by
  cases q with
  | none =>
    cases f with
    | none =>
      have hr : HttpResource.render ⟨p, none, none⟩ = p := by
        simp [HttpResource.render]
      rw [hr, new_eq_normRes, findChar_eq_none.mpr hpq, findChar_eq_none.mpr hpf]
      simp [parts, normRes, List.isEmpty_iff, hp]
    | some fv =>
      obtain ⟨hfne, -⟩ := And.intro (hf fv rfl) trivial
      have hr : HttpResource.render ⟨p, none, some fv⟩ = p ++ '#' :: fv := by
        simp [HttpResource.render]
      have hfs : findChar '#' (p ++ '#' :: fv) = some p.length :=
        findChar_append_cons fv hpf
      rw [hr, new_eq_normRes, hfs]
      rcases hqf : findChar '?' fv with _ | j
      · have hnone : findChar '?' (p ++ '#' :: fv) = none := by
          rw [findChar_eq_none]
          simp only [List.mem_append, List.mem_cons, not_or]
          exact ⟨hpq, by decide, findChar_eq_none.mp hqf⟩
        rw [hnone]
        rw [parts]
        rw [List.take_left' rfl, List.drop_left' rfl]
        simp [normRes, List.isEmpty_iff, hp, hfne]
      · have hsome : findChar '?' (p ++ '#' :: fv) = some (j + 1 + p.length) := by
          rw [findChar_append_not_mem ('#' :: fv) hpq, findChar, if_neg (by decide), hqf]
          rfl
        rw [hsome]
        rw [parts]
        rw [if_neg (by omega)]
        rw [List.take_left' rfl, List.drop_left' rfl]
        simp [normRes, List.isEmpty_iff, hp, hfne]
  | some qv =>
    obtain ⟨hqne, hqnf⟩ := hq qv rfl
    cases f with
    | none =>
      have hr : HttpResource.render ⟨p, some qv, none⟩ = p ++ '?' :: qv := by
        simp [HttpResource.render]
      have hqs : findChar '?' (p ++ '?' :: qv) = some p.length :=
        findChar_append_cons qv hpq
      have hfs : findChar '#' (p ++ '?' :: qv) = none := by
        rw [findChar_eq_none]
        simp only [List.mem_append, List.mem_cons, not_or]
        exact ⟨hpf, by decide, hqnf⟩
      rw [hr, new_eq_normRes, hqs, hfs]
      rw [parts]
      rw [List.take_left' rfl, List.drop_left' rfl]
      simp [normRes, List.isEmpty_iff, hp, hqne]
    | some fv =>
      obtain ⟨hfne, -⟩ := And.intro (hf fv rfl) trivial
      have hr : HttpResource.render ⟨p, some qv, some fv⟩ =
          (p ++ '?' :: qv) ++ '#' :: fv := by
        simp [HttpResource.render]
      have hqs : findChar '?' ((p ++ '?' :: qv) ++ '#' :: fv) = some p.length := by
        rw [List.append_assoc, List.cons_append]
        exact findChar_append_cons _ hpq
      have hfs : findChar '#' ((p ++ '?' :: qv) ++ '#' :: fv) =
          some (p ++ '?' :: qv).length := by
        refine findChar_append_cons fv ?_
        simp only [List.mem_append, List.mem_cons, not_or]
        exact ⟨hpf, by decide, hqnf⟩
      rw [hr, new_eq_normRes, hqs, hfs]
      rw [parts]
      rw [if_pos (by simp)]
      rw [List.take_left' rfl, List.drop_left' rfl, List.take_left' rfl, List.drop_left' rfl]
      simp [normRes, List.isEmpty_iff, hp, hqne, hfne]

/-- `HttpResource::new` is a retraction of `Display` rendering: re-parsing a
parsed-then-rendered resource changes nothing. -/
theorem new_render (s : Str) :
    HttpResource.new ((HttpResource.new s).render) = HttpResource.new s := by
  have hp := new_path_ne_nil s
  have hpq := new_path_not_mem_q s
  have hpf := new_path_not_mem_f s
  have hq : ∀ qv, (HttpResource.new s).query = some qv → qv ≠ [] ∧ '#' ∉ qv :=
    fun qv h => ⟨(new_query_char h).1, (new_query_char h).2.1⟩
  have hf : ∀ fv, (HttpResource.new s).fragment = some fv → fv ≠ [] :=
    fun fv h => (new_fragment_char h).1
  rcases hE : HttpResource.new s with ⟨p, q, f⟩
  rw [hE] at hp hpq hpf hq hf
  exact new_render_components p q f hp hpq hpf hq hf

/-! ### Facts about `HttpUri.new` -/

theorem findSub_http (l : Str) :
    findSub ("://".toList) ("http".toList ++ ("://".toList ++ l)) = some 4 := by
  show findSub ("://".toList) ('h' :: 't' :: 't' :: 'p' :: ':' :: '/' :: '/' :: l) = some 4
  simp [findSub, List.isPrefixOf]

theorem findSub_https (l : Str) :
    findSub ("://".toList) ("https".toList ++ ("://".toList ++ l)) = some 5 := by
  show findSub ("://".toList) ('h' :: 't' :: 't' :: 'p' :: 's' :: ':' :: '/' :: '/' :: l) =
    some 5
  simp [findSub, List.isPrefixOf]

theorem take_http (l : Str) : ("http".toList ++ ("://".toList ++ l)).take 4 = "http".toList :=
  rfl

theorem drop_http (l : Str) : (("http".toList ++ ("://".toList ++ l)).drop 4).drop 3 = l :=
  rfl

theorem take_https (l : Str) :
    ("https".toList ++ ("://".toList ++ l)).take 5 = "https".toList := rfl

theorem drop_https (l : Str) : (("https".toList ++ ("://".toList ++ l)).drop 5).drop 3 = l :=
  rfl

theorem fromStr_http : HttpScheme.fromStr ("http".toList) = some HttpScheme.Http := by
  simp [HttpScheme.fromStr]

theorem fromStr_https : HttpScheme.fromStr ("https".toList) = some HttpScheme.Https := by
  simp [HttpScheme.fromStr]

theorem fromStr_eq_none_iff {s : Str} :
    HttpScheme.fromStr s = none ↔ s ≠ "http".toList ∧ s ≠ "https".toList := by
  rw [HttpScheme.fromStr]
  by_cases h1 : s = "http".toList
  · subst h1; simp
  · rw [if_neg h1]
    by_cases h2 : s = "https".toList
    · subst h2; simp
    · rw [if_neg h2]
      exact ⟨fun _ => ⟨h1, h2⟩, fun _ => rfl⟩

theorem fromStr_eq_some {s : Str} {sch : HttpScheme} (h : HttpScheme.fromStr s = some sch) :
    s = "http".toList ∨ s = "https".toList := by
  by_cases h1 : s = "http".toList
  · exact Or.inl h1
  · by_cases h2 : s = "https".toList
    · exact Or.inr h2
    · rw [fromStr_eq_none_iff.mpr ⟨h1, h2⟩] at h
      cases h

/-- Building a URI from an authority with no `/` and a tail that is empty or
starts with `/` parses to exactly those components. -/
theorem HttpUri.new_build (sch : HttpScheme) (auth tail : Str)
    (hne : auth ≠ []) (hslash : '/' ∉ auth)
    (htail : tail = [] ∨ ∃ t, tail = '/' :: t) :
    HttpUri.new (sch.render ++ "://".toList ++ auth ++ tail) =
      some { scheme := sch, authority := auth, resource := HttpResource.new tail } := by
  cases sch <;> rcases htail with rfl | ⟨t, rfl⟩ <;>
    simp only [HttpScheme.render, List.append_assoc, List.append_nil] <;>
    simp only [HttpUri.new, findSub_http, findSub_https, take_http, take_https,
      fromStr_http, fromStr_https, drop_http, drop_https]
  · rw [findChar_eq_none.mpr hslash]
    simp [List.isEmpty_iff, hne]
  · rw [findChar_append_cons t hslash]
    simp only [List.take_left, List.drop_left]
    simp [List.isEmpty_iff, hne]
  · rw [findChar_eq_none.mpr hslash]
    simp [List.isEmpty_iff, hne]
  · rw [findChar_append_cons t hslash]
    simp only [List.take_left, List.drop_left]
    simp [List.isEmpty_iff, hne]

theorem findChar_drop_cons {c : Char} {s : Str} {i : Nat} (h : findChar c s = some i) :
    s.drop i = c :: s.drop (i + 1) := by
  obtain ⟨hlt, -, hdecomp⟩ := findChar_spec h
  conv_lhs => rw [hdecomp]
  exact List.drop_left' (by simp [List.length_take]; omega)

/-- `HttpUri.new` on an input with no `"://"`. -/
theorem new_uri_noDelim {s : Str} (h : findSub ("://".toList) s = none) :
    HttpUri.new s = none := by
  unfold HttpUri.new
  rw [h]

/-- `HttpUri.new` on an input whose scheme token is not recognized. -/
theorem new_uri_badScheme {s : Str} {idx : Nat}
    (h1 : findSub ("://".toList) s = some idx)
    (h2 : HttpScheme.fromStr (s.take idx) = none) :
    HttpUri.new s = none := by
  unfold HttpUri.new
  rw [h1]
  simp only []
  rw [h2]

/-- `HttpUri.new` when the scheme parses and a `/` follows the delimiter. -/
theorem new_uri_slash {s : Str} {idx i : Nat} {sch : HttpScheme}
    (h1 : findSub ("://".toList) s = some idx)
    (h2 : HttpScheme.fromStr (s.take idx) = some sch)
    (h3 : findChar '/' ((s.drop idx).drop 3) = some i) :
    HttpUri.new s =
      if (((s.drop idx).drop 3).take i).isEmpty then none
      else some { scheme := sch, authority := ((s.drop idx).drop 3).take i,
                  resource := HttpResource.new (((s.drop idx).drop 3).drop i) } := by
  unfold HttpUri.new
  rw [h1]
  simp only []
  rw [h2]
  simp only []
  rw [h3]

/-- `HttpUri.new` when the scheme parses and no `/` follows the delimiter. -/
theorem new_uri_noSlash {s : Str} {idx : Nat} {sch : HttpScheme}
    (h1 : findSub ("://".toList) s = some idx)
    (h2 : HttpScheme.fromStr (s.take idx) = some sch)
    (h3 : findChar '/' ((s.drop idx).drop 3) = none) :
    HttpUri.new s =
      if ((s.drop idx).drop 3).isEmpty then none
      else some { scheme := sch, authority := (s.drop idx).drop 3,
                  resource := HttpResource.new [] } := by
  unfold HttpUri.new
  rw [h1]
  simp only []
  rw [h2]
  simp only []
  rw [h3]

/-- Inversion of a successful URI parse: the authority is a nonempty string
with no `/`, and the resource was produced by `HttpResource.new` on a tail
that is empty or starts with `/`. -/
theorem HttpUri.new_inv {s : Str} {u : HttpUri} (h : HttpUri.new s = some u) :
    ∃ idx, findSub ("://".toList) s = some idx ∧
      HttpScheme.fromStr (s.take idx) = some u.scheme ∧
      u.authority ≠ [] ∧ '/' ∉ u.authority ∧
      ∃ tail, (tail = [] ∨ ∃ t, tail = '/' :: t) ∧
        u.resource = HttpResource.new tail := by
  rcases hfs : findSub ("://".toList) s with _ | idx
  · rw [new_uri_noDelim hfs] at h
    cases h
  rcases hsc : HttpScheme.fromStr (s.take idx) with _ | sch
  · rw [new_uri_badScheme hfs hsc] at h
    cases h
  rcases hfc : findChar '/' ((s.drop idx).drop 3) with _ | i
  · rw [new_uri_noSlash hfs hsc hfc] at h
    by_cases hc : ((s.drop idx).drop 3).isEmpty = true
    · rw [if_pos hc] at h
      cases h
    · rw [if_neg hc] at h
      injection h with h
      subst h
      exact ⟨idx, rfl, hsc, by simpa [List.isEmpty_iff] using hc,
        findChar_eq_none.mp hfc, [], Or.inl rfl, rfl⟩
  · rw [new_uri_slash hfs hsc hfc] at h
    by_cases hc : (((s.drop idx).drop 3).take i).isEmpty = true
    · rw [if_pos hc] at h
      cases h
    · rw [if_neg hc] at h
      injection h with h
      subst h
      exact ⟨idx, rfl, hsc, by simpa [List.isEmpty_iff] using hc,
        (findChar_spec hfc).2.1, ((s.drop idx).drop 3).drop i,
        Or.inr ⟨((s.drop idx).drop 3).drop (i + 1), findChar_drop_cons hfc⟩, rfl⟩


/-! ### The claims -/

/-- Claim C1 (amended): query/fragment precedence of `HttpResource::new`.
When both `?` and `#` occur and the first `?` precedes the first `#`, the
path is the text before the `?`, the query the text strictly between the two
delimiters, and the fragment the text after the `#` — each component subject
to the source's normalization (empty path becomes `"/"`, empty query or
fragment becomes `none`).  When the first `#` is at or before the first `?`,
the `?` is not a query delimiter: the path is the text before the `#`
(normalized), the query is absent, and the fragment is everything after the
first `#` verbatim (necessarily nonempty, since it contains that `?`). -/
theorem claim1_precedence (s : Str) (q f : Nat)
    (hq : findChar '?' s = some q) (hf : findChar '#' s = some f) :
    (q < f →
      HttpResource.new s =
        { path := if (s.take q).isEmpty then "/".toList else s.take q,
          query := if ((s.take f).drop (q + 1)).isEmpty then none
                   else some ((s.take f).drop (q + 1)),
          fragment := if (s.drop (f + 1)).isEmpty then none
                      else some (s.drop (f + 1)) }) ∧
    (f ≤ q →
      HttpResource.new s =
        { path := if (s.take f).isEmpty then "/".toList else s.take f,
          query := none,
          fragment := some (s.drop (f + 1)) }) := by
  constructor
  · intro hlt
    rw [new_eq_normRes, hq, hf]
    simp only [parts]
    rw [if_pos hlt]
    simp only []
    rw [List.take_take, Nat.min_eq_left (Nat.le_of_lt hlt), List.drop_drop, List.drop_drop]
    rfl
  · intro hle
    have hfq : f ≠ q := by
      intro hEq
      subst hEq
      have hcontr := (findChar_drop_cons hq).symm.trans (findChar_drop_cons hf)
      simp at hcontr
    have hmem : '?' ∈ s.drop (f + 1) := by
      have h2 : s.drop q = '?' :: s.drop (q + 1) := findChar_drop_cons hq
      have hmq : '?' ∈ s.drop q := by
        rw [h2]
        exact List.mem_cons_self _ _
      have hdd : s.drop q = (s.drop (f + 1)).drop (q - (f + 1)) := by
        rw [List.drop_drop]
        congr 1
        omega
      rw [hdd] at hmq
      exact List.drop_subset _ _ hmq
    have hne2 : s.drop (f + 1) ≠ [] := List.ne_nil_of_mem hmem
    rw [new_eq_normRes, hq, hf]
    simp only [parts]
    rw [if_neg (Nat.not_lt_of_ge hle)]
    simp only []
    rw [List.drop_drop]
    rw [normRes]
    simp [List.isEmpty_iff, hne2]

/-- Counterexample to claim C1 as stated: for the tail `"?#frag"` both
delimiters occur and the first `?` (index 0) precedes the first `#`
(index 1), so the claim demands that the path be the text before the `?`,
which is the empty string — but the parser normalizes the empty path to
`"/"`. -/
theorem claim1_precedence_cex :
    (HttpResource.new ("?#frag".toList)).path ≠ ("?#frag".toList).take 0 := by decide

/-- Witness for claim C1's theorem at the tail `"/a?b#c"` (first `?` at 2,
first `#` at 4). -/
theorem claim1_precedence_witness :
    HttpResource.new ("/a?b#c".toList) =
      { path := "/a".toList, query := some ("b".toList),
        fragment := some ("c".toList) } := by
  rw [(claim1_precedence ("/a?b#c".toList) 2 4 (by decide) (by decide)).1 (by decide)]
  decide

/-- Claim C3: normalization invariants of `HttpResource::new`.  For every
input the path is nonempty, a present query or fragment is never the empty
string, a present query sits strictly after the first `?` (so it excludes
the leading delimiter), a present fragment is exactly the text after the
first `#` (excluding the delimiter), and the three quoted empty-component
examples evaluate as stated. -/
theorem claim3_normalization :
    (∀ s : Str,
      (HttpResource.new s).path ≠ [] ∧
      (HttpResource.new s).query ≠ some [] ∧
      (HttpResource.new s).fragment ≠ some [] ∧
      (∀ qv, (HttpResource.new s).query = some qv →
        ∃ i, findChar '?' s = some i ∧ qv <+: s.drop (i + 1)) ∧
      (∀ fv, (HttpResource.new s).fragment = some fv →
        ∃ j, findChar '#' s = some j ∧ fv = s.drop (j + 1))) ∧
    HttpResource.new ("?#".toList) =
      { path := "/".toList, query := none, fragment := none } ∧
    HttpResource.new ("?key=val#".toList) =
      { path := "/".toList, query := some ("key=val".toList), fragment := none } ∧
    HttpResource.new ("?#frag".toList) =
      { path := "/".toList, query := none, fragment := some ("frag".toList) } := by
  refine ⟨fun s => ⟨new_path_ne_nil s, new_query_ne_some_nil s, new_fragment_ne_some_nil s,
    fun qv h => (new_query_char h).2.2, fun fv h => (new_fragment_char h).2⟩,
    by decide, by decide, by decide⟩

/-- Claim C4: `HttpScheme` parse/render round-trip on the closed two-token
domain.  `"http"` and `"https"` parse to `Http` and `Https`, rendering a
parsed scheme reproduces the token, parsing is injective on the two tokens,
and every other string fails to parse. -/
theorem claim4_scheme_roundtrip :
    HttpScheme.fromStr ("http".toList) = some HttpScheme.Http ∧
    HttpScheme.fromStr ("https".toList) = some HttpScheme.Https ∧
    (∀ t sch, HttpScheme.fromStr t = some sch → sch.render = t) ∧
    (∀ t₁ t₂ sch, HttpScheme.fromStr t₁ = some sch → HttpScheme.fromStr t₂ = some sch →
      t₁ = t₂) ∧
    (∀ t, t ≠ "http".toList → t ≠ "https".toList → HttpScheme.fromStr t = none) := by
  have hval : ∀ t sch, HttpScheme.fromStr t = some sch →
      (t = "http".toList ∧ sch = HttpScheme.Http) ∨
      (t = "https".toList ∧ sch = HttpScheme.Https) := by
    intro t sch h
    rcases fromStr_eq_some h with rfl | rfl
    · rw [fromStr_http] at h
      injection h with h
      exact Or.inl ⟨rfl, h.symm⟩
    · rw [fromStr_https] at h
      injection h with h
      exact Or.inr ⟨rfl, h.symm⟩
  refine ⟨fromStr_http, fromStr_https, ?_, ?_, ?_⟩
  · intro t sch h
    rcases hval t sch h with ⟨rfl, rfl⟩ | ⟨rfl, rfl⟩ <;> rfl
  · intro t₁ t₂ sch h1 h2
    rcases hval t₁ sch h1 with ⟨rfl, rfl⟩ | ⟨rfl, rfl⟩ <;>
      rcases hval t₂ _ h2 with ⟨rfl, h⟩ | ⟨rfl, h⟩ <;> first | rfl | simp at h
  · intro t h1 h2
    exact fromStr_eq_none_iff.mpr ⟨h1, h2⟩

/-- Claim C5: totality of resource parsing.  `HttpResource.new` yields a
well-formed resource (in particular a nonempty path) for every input, and
whenever the scheme parses and the authority substring is nonempty,
`HttpUri.new` succeeds. -/
theorem claim5_totality :
    (∀ s : Str, ∃ r : HttpResource, HttpResource.new s = r ∧ r.path ≠ []) ∧
    (∀ s : Str, ∀ idx : Nat, ∀ sch : HttpScheme,
      findSub ("://".toList) s = some idx →
      HttpScheme.fromStr (s.take idx) = some sch →
      (match findChar '/' ((s.drop idx).drop 3) with
        | some i => ((s.drop idx).drop 3).take i
        | none => (s.drop idx).drop 3) ≠ [] →
      ∃ u, HttpUri.new s = some u) := by
  refine ⟨fun s => ⟨HttpResource.new s, rfl, new_path_ne_nil s⟩, ?_⟩
  intro s idx sch h1 h2 h3
  rcases hfc : findChar '/' ((s.drop idx).drop 3) with _ | i
  · rw [hfc] at h3
    simp only [] at h3
    exact ⟨_, by rw [new_uri_noSlash h1 h2 hfc,
      if_neg (by simpa [List.isEmpty_iff] using h3)]⟩
  · rw [hfc] at h3
    simp only [] at h3
    exact ⟨_, by rw [new_uri_slash h1 h2 hfc,
      if_neg (by simpa [List.isEmpty_iff] using h3)]⟩

/-- Witness for claim C5's theorem: the second conjunct applied to the
input `"http://h"` (delimiter at 4, scheme `Http`, authority `"h"`). -/
theorem claim5_totality_witness :
    ∃ u, HttpUri.new ("http://h".toList) = some u :=
  claim5_totality.2 ("http://h".toList) 4 HttpScheme.Http (by decide) (by decide) (by decide)

/-- Claim C7: missing-path normalization at the URI level.  For a scheme
token in {"http", "https"} and a nonempty authority containing none of
`/`, `?`, `#`, parsing `scheme ++ "://" ++ authority` succeeds with that
scheme and authority, path `"/"`, and no query or fragment. -/
theorem claim7_bare_authority (schs auth : Str)
    (hs : schs = "http".toList ∨ schs = "https".toList)
    (hne : auth ≠ []) (h1 : '/' ∉ auth) (h2 : '?' ∉ auth) (h3 : '#' ∉ auth) :
    ∃ sch, HttpScheme.fromStr schs = some sch ∧
      HttpUri.new (schs ++ "://".toList ++ auth) =
        some { scheme := sch, authority := auth,
               resource := { path := "/".toList, query := none, fragment := none } } := by
  rcases hs with rfl | rfl
  · refine ⟨HttpScheme.Http, fromStr_http, ?_⟩
    have hb := HttpUri.new_build HttpScheme.Http auth [] hne h1 (Or.inl rfl)
    rw [List.append_nil] at hb
    simp only [HttpScheme.render] at hb
    rw [hb]
    rfl
  · refine ⟨HttpScheme.Https, fromStr_https, ?_⟩
    have hb := HttpUri.new_build HttpScheme.Https auth [] hne h1 (Or.inl rfl)
    rw [List.append_nil] at hb
    simp only [HttpScheme.render] at hb
    rw [hb]
    rfl

/-- Witness for claim C7's theorem at `"http://example.com"`. -/
theorem claim7_bare_authority_witness :
    ∃ sch, HttpScheme.fromStr ("http".toList) = some sch ∧
      HttpUri.new ("http".toList ++ "://".toList ++ "example.com".toList) =
        some { scheme := sch, authority := "example.com".toList,
               resource := { path := "/".toList, query := none, fragment := none } } :=
  claim7_bare_authority ("http".toList) ("example.com".toList) (Or.inl rfl)
    (by decide) (by decide) (by decide) (by decide)

/-- Claim C8: in-bounds slicing.  In the character-level model of the
parsers, every partial slice the source performs is within bounds: the three
characters after a found `"://"` exist (`rest[3..]`), a found delimiter index
is inside the string, and each one-character skip (`query[1..]`,
`frag[1..]`) acts on a nonempty slice; the parsers are total functions, so
they terminate on every input. -/
theorem claim8_inbounds :
    (∀ s : Str, ∀ i : Nat, findSub ("://".toList) s = some i → i + 3 ≤ s.length) ∧
    (∀ c : Char, ∀ s : Str, ∀ i : Nat, findChar c s = some i → i < s.length) ∧
    (∀ s : Str, ∀ q f : Nat, findChar '?' s = some q → findChar '#' s = some f → q < f →
      1 ≤ ((s.take f).drop q).length ∧ 1 ≤ (s.drop f).length) ∧
    (∀ s : Str, ∀ q : Nat, findChar '?' s = some q → 1 ≤ (s.drop q).length) ∧
    (∀ s : Str, ∀ f : Nat, findChar '#' s = some f → 1 ≤ (s.drop f).length) := by
  refine ⟨?_, ?_, ?_, ?_, ?_⟩
  · intro s i h
    have hp := (findSub_sound h).length_le
    have hlen : ("://".toList).length = 3 := rfl
    rw [hlen, List.length_drop] at hp
    omega
  · intro c s i h
    exact findChar_lt_length h
  · intro s q f hq hf hlt
    have h1 := findChar_lt_length hq
    have h2 := findChar_lt_length hf
    constructor
    · rw [List.length_drop, List.length_take]
      omega
    · rw [List.length_drop]
      omega
  · intro s q h
    have := findChar_lt_length h
    rw [List.length_drop]
    omega
  · intro s f h
    have := findChar_lt_length h
    rw [List.length_drop]
    omega

/-- Claim C9: structural invariants of a successfully parsed URI.  The
authority contains no `/`, and the resource path starts with `/`. -/
theorem claim9_parsed_invariants (s : Str) (u : HttpUri) (h : HttpUri.new s = some u) :
    '/' ∉ u.authority ∧ ∃ t, u.resource.path = '/' :: t := by
  obtain ⟨idx, -, -, -, hslash, tail, htail, hres⟩ := HttpUri.new_inv h
  refine ⟨hslash, ?_⟩
  rw [hres]
  exact new_path_head htail

/-- Witness for claim C9's theorem at `"http://example.com/a"`. -/
theorem claim9_parsed_invariants_witness :
    '/' ∉ ({ scheme := HttpScheme.Http, authority := "example.com".toList,
             resource := { path := "/a".toList, query := none,
                           fragment := none } } : HttpUri).authority ∧
    ∃ t, ({ scheme := HttpScheme.Http, authority := "example.com".toList,
            resource := { path := "/a".toList, query := none,
                          fragment := none } } : HttpUri).resource.path = '/' :: t :=
  claim9_parsed_invariants ("http://example.com/a".toList)
    { scheme := HttpScheme.Http, authority := "example.com".toList,
      resource := { path := "/a".toList, query := none, fragment := none } }
    (by decide)

/-- Claim C10: delimiter exclusion in parsed resource components.  The path
contains neither `?` nor `#`; a present query contains no `#`; a present
fragment is exactly the text from just after the first `#` to the end of the
input (so later `#` and `?` characters stay in it verbatim). -/
theorem claim10_delimiters (s : Str) :
    '?' ∉ (HttpResource.new s).path ∧ '#' ∉ (HttpResource.new s).path ∧
    (∀ qv, (HttpResource.new s).query = some qv → '#' ∉ qv) ∧
    (∀ fv, (HttpResource.new s).fragment = some fv →
      ∃ j, findChar '#' s = some j ∧ fv = s.drop (j + 1)) :=
  ⟨new_path_not_mem_q s, new_path_not_mem_f s,
   fun qv h => (new_query_char h).2.1,
   fun fv h => (new_fragment_char h).2⟩

/-- Claim C6: URI round trip.  Whenever `HttpUri.new` succeeds with value
`u`, parsing the rendering of `u` (scheme, `"://"`, authority, path,
optional `?query`, optional `#fragment`) succeeds and returns a value
structurally equal to `u`. -/
theorem claim6_roundtrip (s : Str) (u : HttpUri) (h : HttpUri.new s = some u) :
    HttpUri.new u.render = some u := by
  obtain ⟨idx, -, -, hne, hslash, tail, htail, hres⟩ := HttpUri.new_inv h
  have hhead : u.resource.render = [] ∨ ∃ w, u.resource.render = '/' :: w := by
    right
    obtain ⟨w, hw⟩ : ∃ w, u.resource.path = '/' :: w := by
      rw [hres]
      exact new_path_head htail
    rw [HttpResource.render, hw]
    simp only [List.cons_append, List.append_assoc]
    exact ⟨_, rfl⟩
  have hb := HttpUri.new_build u.scheme u.authority u.resource.render hne hslash hhead
  have hrw : u.render = u.scheme.render ++ "://".toList ++ u.authority ++ u.resource.render :=
    rfl
  rw [hrw, hb]
  have hfix : HttpResource.new u.resource.render = u.resource := by
    rw [hres]
    exact new_render tail
  rw [hfix]

/-- Witness for claim C6's theorem at `"http://example.com/a?b#c"`. -/
theorem claim6_roundtrip_witness :
    HttpUri.new
        (HttpUri.render
          { scheme := HttpScheme.Http, authority := "example.com".toList,
            resource := { path := "/a".toList, query := some ("b".toList),
                          fragment := some ("c".toList) } }) =
      some { scheme := HttpScheme.Http, authority := "example.com".toList,
             resource := { path := "/a".toList, query := some ("b".toList),
                           fragment := some ("c".toList) } } :=
  claim6_roundtrip ("http://example.com/a?b#c".toList)
    { scheme := HttpScheme.Http, authority := "example.com".toList,
      resource := { path := "/a".toList, query := some ("b".toList),
                    fragment := some ("c".toList) } }
    (by decide)

/-- Claim C2: failure characterization of `HttpUri.new`.  Parsing fails
exactly when the input has no `"://"`, or the text before the first `"://"`
is neither `"http"` nor `"https"`, or the text between the first `"://"` and
the first following `/` (or the end, if none) is empty.  The failure value
is the single `none` (the source's `Err(())`), carrying no information. -/
theorem claim2_failure_iff (s : Str) :
    HttpUri.new s = none ↔
      (match findSub ("://".toList) s with
        | none => True
        | some idx =>
          (s.take idx ≠ "http".toList ∧ s.take idx ≠ "https".toList) ∨
          (match findChar '/' ((s.drop idx).drop 3) with
            | some i => ((s.drop idx).drop 3).take i
            | none => (s.drop idx).drop 3) = []) := by
  rcases hfs : findSub ("://".toList) s with _ | idx
  · rw [new_uri_noDelim hfs]
    simp
  · rcases hsc : HttpScheme.fromStr (s.take idx) with _ | sch
    · rw [new_uri_badScheme hfs hsc]
      simp only []
      exact iff_of_true trivial (Or.inl (fromStr_eq_none_iff.mp hsc))
    · have hcond1 : ¬ (s.take idx ≠ "http".toList ∧ s.take idx ≠ "https".toList) := by
        rcases fromStr_eq_some hsc with h | h
        · exact fun hc => hc.1 h
        · exact fun hc => hc.2 h
      rcases hfc : findChar '/' ((s.drop idx).drop 3) with _ | i
      · rw [new_uri_noSlash hfs hsc hfc]
        simp only []
        rw [hfc]
        simp only []
        by_cases hc : ((s.drop idx).drop 3).isEmpty = true
        · rw [if_pos hc]
          exact iff_of_true rfl (Or.inr (List.isEmpty_iff.mp hc))
        · rw [if_neg hc]
          constructor
          · intro hfalse
            exact Option.noConfusion hfalse
          · rintro (hbad | hbad)
            · exact absurd hbad hcond1
            · exact absurd (List.isEmpty_iff.mpr hbad) hc
      · rw [new_uri_slash hfs hsc hfc]
        simp only []
        rw [hfc]
        simp only []
        by_cases hc : (((s.drop idx).drop 3).take i).isEmpty = true
        · rw [if_pos hc]
          exact iff_of_true rfl (Or.inr (List.isEmpty_iff.mp hc))
        · rw [if_neg hc]
          constructor
          · intro hfalse
            exact Option.noConfusion hfalse
          · rintro (hbad | hbad)
            · exact absurd hbad hcond1
            · exact absurd (List.isEmpty_iff.mpr hbad) hc
